import Mathlib

/-!
# Visionary: the buffer/caret manager and the input dispatcher

A shallow embedding of `src/main.cpp` (classes `LineManager` and `TextEditor`).

* `std::string m_Text` is a `List Char`; `m_Text.size()` is its length.  A `std::string`
  never has `size() = npos`, so every real buffer has length `< SIZE_MAX`; theorems that
  depend on it carry that bound as a hypothesis.
* `size_t m_Index` is a `Nat` below `2 ^ 64`; `m_Index++` and `m_Text.size() - 1` are taken
  modulo `2 ^ 64`, as the unsigned arithmetic of the source is.
* a member function that mutates the object is a function from the state to the returned
  value paired with the new state; `throw std::out_of_range(msg)` is `Except.error msg`
  paired with the state the object is left in.
* an exception that leaves a `noexcept` member ends the process: the dispatcher returns
  `Except.error msg` and no state.
-/

namespace Visionary

/-- Number of values of `size_t` (64-bit). -/
def SIZE_MOD : Nat := 2 ^ 64

/-- Largest value of `size_t`; also `std::string::npos`. -/
def SIZE_MAX : Nat := SIZE_MOD - 1

/-- The logical state of `class LineManager`: the caret `m_Index` and the buffer `m_Text`
(the cursor shape only matters to `Draw`). -/
structure LineManager where
  m_Index : Nat
  m_Text : List Char
  deriving DecidableEq, Repr

namespace LineManager

/-- `LineManager::LineManager()`: caret 2, buffer "Hello, World!\n". -/
def new : LineManager :=
  { m_Index := 2, m_Text := "Hello, World!\n".toList }

/-- `LineManager::MoveLeft`: the decrement is only reached when `m_Index > 0`, where it
does not wrap. -/
def MoveLeft (lm : LineManager) : Bool × LineManager :=
  if lm.m_Index > 0 then
    (true, { lm with m_Index := lm.m_Index - 1 })
  else
    (false, lm)

/-- `LineManager::MoveRight`: the bound `m_Text.size() - 1` and the increment are
unsigned 64-bit operations. -/
def MoveRight (lm : LineManager) : Bool × LineManager :=
  if lm.m_Index ≤ (lm.m_Text.length + SIZE_MOD - 1) % SIZE_MOD then
    (true, { lm with m_Index := (lm.m_Index + 1) % SIZE_MOD })
  else
    (false, lm)

/-- `LineManager::Add`: throws before touching the state when the caret is past the end,
otherwise inserts `c` before position `m_Index` and calls `MoveRight`. -/
def Add (lm : LineManager) (c : Char) : Except String Unit × LineManager :=
  if lm.m_Text.length < lm.m_Index then
    (.error "Tried adding out of range.", lm)
  else
    (.ok (), (MoveRight { lm with m_Text := lm.m_Text.insertIdx lm.m_Index c }).2)

/-- `LineManager::Remove`: returns at once when the caret is 0, throws when the caret is
past the end, otherwise erases the character at `m_Index - 1` and calls `MoveLeft`. -/
def Remove (lm : LineManager) : Except String Unit × LineManager :=
  if lm.m_Index = 0 then
    (.ok (), lm)
  else if lm.m_Text.length < lm.m_Index then
    (.error "Tried removing out of range.", lm)
  else
    (.ok (), (MoveLeft { lm with m_Text := lm.m_Text.eraseIdx (lm.m_Index - 1) }).2)

/-- The loop of `FindFirstLeftOfCursor`: `it` runs from offset `n - 1` down to offset 0 and
the first offset holding `c` is returned; `none` when the loop ends without a match.  A
read outside the buffer (only possible when the caret is past the end) matches nothing. -/
def scanLeft (text : List Char) (c : Char) : Nat → Option Nat
  | 0 => none
  | n + 1 => if text[n]? = some c then some n else scanLeft text c n

/-- `LineManager::FindFirstLeftOfCursor`: the offset found, or `m_Text.size()` as the
invalid position. -/
def FindFirstLeftOfCursor (lm : LineManager) (c : Char) : Nat :=
  if lm.m_Index ≤ 0 then
    lm.m_Text.length
  else
    match scanLeft lm.m_Text c lm.m_Index with
    | some j => j
    | none => lm.m_Text.length

/-- The loop of `FindFirstRightOfCursor` over the characters from offset `pos` to the end:
`it` advances until it meets `c` (its offset is returned) or `end()` (`none`). -/
def scanRight (c : Char) : List Char → Nat → Option Nat
  | [], _ => none
  | x :: rest, pos => if x = c then some pos else scanRight c rest (pos + 1)

/-- `LineManager::FindFirstRightOfCursor`: the scan starts at offset `m_Index + 1`. -/
def FindFirstRightOfCursor (lm : LineManager) (c : Char) : Nat :=
  if lm.m_Index ≥ lm.m_Text.length then
    lm.m_Text.length
  else
    match scanRight c (lm.m_Text.drop (lm.m_Index + 1)) (lm.m_Index + 1) with
    | some j => j
    | none => lm.m_Text.length

/-- `LineManager::MoveUp`. -/
def MoveUp (lm : LineManager) : Bool × LineManager :=
  let nextLeftNewline := FindFirstLeftOfCursor lm '\n'
  if nextLeftNewline = lm.m_Text.length then
    (false, lm)
  else
    (true, { lm with m_Index := nextLeftNewline })

/-- `LineManager::MoveDown`. -/
def MoveDown (lm : LineManager) : Bool × LineManager :=
  let nextRightNewline := FindFirstRightOfCursor lm '\n'
  if nextRightNewline = lm.m_Text.length then
    (false, lm)
  else
    (true, { lm with m_Index := nextRightNewline })

/-- `LineManager::SetBegin`. -/
def SetBegin (lm : LineManager) : LineManager :=
  { lm with m_Index := 0 }

/-- `LineManager::SetEnd`: `m_Text.size() - 1` is only reached on a buffer that is not
empty, where it does not wrap. -/
def SetEnd (lm : LineManager) : LineManager :=
  if lm.m_Text.isEmpty then
    lm
  else
    { lm with m_Index := lm.m_Text.length - 1 }

end LineManager

/-- Modelled from the spec: the key codes of the windowing library (`sf::Keyboard::Key`,
not part of the repository).  The seven keys the dispatcher compares against are named;
`Other n` stands for every other key code. -/
inductive Key where
  | Enter
  | Tab
  | Backspace
  | Left
  | Right
  | Up
  | Down
  | Other (n : Nat)
  deriving DecidableEq, Repr

/-- The fields of `sf::Event::KeyPressed` that `OnKeyPressed` reads. -/
structure KeyPressed where
  code : Key
  control : Bool
  shift : Bool
  alt : Bool
  deriving DecidableEq, Repr

/-- The field of `sf::Event::TextEntered` that `OnTextEntered` reads: a `uint32_t`. -/
structure TextEntered where
  unicode : Nat
  deriving DecidableEq, Repr

/-- The logical state of `class TextEditor`. -/
structure TextEditor where
  m_Lines : LineManager
  deriving DecidableEq, Repr

namespace TextEditor

/-- `TextEditor::TextEditor()`. -/
def new : TextEditor :=
  { m_Lines := LineManager.new }

/-- A call of a throwing `LineManager` member from a `noexcept` dispatcher member: on a
throw the exception leaves the `noexcept` function and the process is terminated. -/
def call (r : Except String Unit × LineManager) : Except String TextEditor :=
  match r with
  | (.ok _, lm) => .ok { m_Lines := lm }
  | (.error msg, _) => .error msg

/-- `TextEditor::OnKeyPressed`: seven `if` statements in a row.  The three modifier flags
are read into locals and never used. -/
def OnKeyPressed (ed : TextEditor) (keyPressedEvent : KeyPressed) : Except String TextEditor :=
  let key := keyPressedEvent.code
  (if key = Key.Enter then call (ed.m_Lines.Add '\n') else .ok ed) >>= fun ed =>
  (if key = Key.Tab then call (ed.m_Lines.Add '\t') else .ok ed) >>= fun ed =>
  (if key = Key.Backspace then call ed.m_Lines.Remove else .ok ed) >>= fun ed =>
  (if key = Key.Left then .ok { m_Lines := ed.m_Lines.MoveLeft.2 } else .ok ed) >>= fun ed =>
  (if key = Key.Right then .ok { m_Lines := ed.m_Lines.MoveRight.2 } else .ok ed) >>= fun ed =>
  (if key = Key.Up then .ok { m_Lines := ed.m_Lines.MoveUp.2 } else .ok ed) >>= fun ed =>
  (if key = Key.Down then .ok { m_Lines := ed.m_Lines.MoveDown.2 } else .ok ed)

/-- `TextEditor::OnTextEntered`: code points outside 32..126 are dropped; the others are
cast to `char` and added. -/
def OnTextEntered (ed : TextEditor) (textEnteredEvent : TextEntered) : Except String TextEditor :=
  let unicode := textEnteredEvent.unicode
  if unicode ≥ 127 ∨ unicode < 32 then
    .ok ed
  else
    call (ed.m_Lines.Add (Char.ofNat (unicode % 256)))

end TextEditor

/-- The events `main` hands to the editor (`onKeyPressed`, `onTextEntered`). -/
inductive Event where
  | keyPressed (e : KeyPressed)
  | textEntered (e : TextEntered)
  deriving DecidableEq, Repr

/-- One event of the loop in `main`, dispatched to the editor. -/
def handleEvent (ed : TextEditor) : Event → Except String TextEditor
  | .keyPressed e => ed.OnKeyPressed e
  | .textEntered e => ed.OnTextEntered e

/-- The events of a session handled in order; the session stops at the first exception. -/
def handleEvents (ed : TextEditor) : List Event → Except String TextEditor
  | [] => .ok ed
  | e :: rest => handleEvent ed e >>= fun ed1 => handleEvents ed1 rest

/-- A key press with no modifier held. -/
def press (k : Key) : Event :=
  .keyPressed { code := k, control := false, shift := false, alt := false }

/-- The invariant of the data model: the caret is an offset in `[0, length]`. -/
def CaretInRange (lm : LineManager) : Prop :=
  lm.m_Index ≤ lm.m_Text.length

instance (lm : LineManager) : Decidable (CaretInRange lm) :=
  inferInstanceAs (Decidable (lm.m_Index ≤ lm.m_Text.length))

/-- Down, Right, fourteen Backspaces, Right: empties the initial buffer and then moves
right on the empty buffer. -/
def emptyThenRight : List Event :=
  [press .Down, press .Right] ++ List.replicate 14 (press .Backspace) ++ [press .Right]

/-- The dispatch table in the words of the spec (section 4.2), one row per key: Enter
inserts a newline, Tab inserts a tab, Backspace deletes before the caret, Left and Right
move by one, Up and Down run the nearest-newline scans, and any other key does nothing.
It is compared with `TextEditor.OnKeyPressed`, which is the translation of the source. -/
def specKeyTable (ed : TextEditor) : Key → Except String TextEditor
  | .Enter => TextEditor.call (ed.m_Lines.Add '\n')
  | .Tab => TextEditor.call (ed.m_Lines.Add '\t')
  | .Backspace => TextEditor.call ed.m_Lines.Remove
  | .Left => .ok { m_Lines := ed.m_Lines.MoveLeft.2 }
  | .Right => .ok { m_Lines := ed.m_Lines.MoveRight.2 }
  | .Up => .ok { m_Lines := ed.m_Lines.MoveUp.2 }
  | .Down => .ok { m_Lines := ed.m_Lines.MoveDown.2 }
  | .Other _ => .ok ed

/-- The state after `n` consecutive calls of `MoveRight` (the returned flags dropped). -/
def MoveRightTimes : Nat → LineManager → LineManager
  | 0, lm => lm
  | n + 1, lm => MoveRightTimes n lm.MoveRight.2

/-! ## Arithmetic of `size_t` and list splicing -/

theorem size_sub_one_of_pos (n : Nat) (h0 : 0 < n) (hn : n < SIZE_MOD) :
    (n + SIZE_MOD - 1) % SIZE_MOD = n - 1 := by
  unfold SIZE_MOD at *
  omega

theorem size_sub_one_zero : (0 + SIZE_MOD - 1) % SIZE_MOD = SIZE_MAX := by
  unfold SIZE_MAX SIZE_MOD
  omega

theorem insertIdx_eq_take_cons_drop (c : Char) :
    ∀ (i : Nat) (s : List Char), i ≤ s.length → s.insertIdx i c = s.take i ++ [c] ++ s.drop i
  | 0, s, _ => by simp
  | i + 1, [], h => by simp at h
  | i + 1, x :: xs, h => by
      have ih := insertIdx_eq_take_cons_drop c i xs (by simpa using h)
      simp [List.insertIdx_succ_cons, ih]

namespace LineManager

/-- On a buffer that is not empty, `MoveRight` advances exactly when the caret is before
the end. -/
theorem MoveRight_of_ne_nil (i : Nat) (s : List Char) (h0 : 0 < s.length)
    (hs : s.length < SIZE_MOD) :
    MoveRight { m_Index := i, m_Text := s }
      = if i < s.length then (true, { m_Index := i + 1, m_Text := s })
        else (false, { m_Index := i, m_Text := s }) := by
  have hb : (s.length + SIZE_MOD - 1) % SIZE_MOD = s.length - 1 :=
    size_sub_one_of_pos _ h0 hs
  unfold MoveRight
  simp only [hb]
  by_cases hi : i < s.length
  · have h1 : i ≤ s.length - 1 := by omega
    have h2 : (i + 1) % SIZE_MOD = i + 1 := Nat.mod_eq_of_lt (by omega)
    simp [hi, h1, h2]
  · have h1 : ¬ i ≤ s.length - 1 := by omega
    simp [hi, h1]

end LineManager

/-! ## The caret invariant and the dispatcher (C1, C2, C3) -/

/-- C1 (the code breaks it): the caret invariant `caret ≤ length` is not kept by the
dispatcher.  From the constructed state, the seventeen key presses of `emptyThenRight`
are all handled without an exception and leave the empty buffer with the caret at 1. -/
theorem C1_caret_leaves_range_after_events :
    handleEvents TextEditor.new emptyThenRight = .ok { m_Lines := { m_Index := 1, m_Text := [] } }
      ∧ ¬ CaretInRange { m_Index := 1, m_Text := [] } := by
  refine ⟨by rfl, ?_⟩
  simp [CaretInRange]

/-- C2 (the code breaks it): both out-of-range failures are reachable through the
dispatcher.  After `emptyThenRight`, a text-entered `a` makes `Add` throw, and a Backspace
makes `Remove` throw. -/
theorem C2_out_of_range_reachable :
    handleEvents TextEditor.new (emptyThenRight ++ [.textEntered { unicode := 97 }])
        = .error "Tried adding out of range."
      ∧ handleEvents TextEditor.new (emptyThenRight ++ [press .Backspace])
        = .error "Tried removing out of range." := by
  constructor <;> rfl

/-- C3 (the code breaks it): on the empty buffer with the caret at 0, which is the buffer
length, `MoveRight` returns true and moves the caret to 1. -/
theorem C3_MoveRight_at_end_of_empty_buffer :
    LineManager.MoveRight { m_Index := 0, m_Text := [] }
      = (true, { m_Index := 1, m_Text := [] }) := by
  rfl

/-! ## Editing operations (C4, C5, C6, C7) -/

namespace LineManager

/-- What `Add` does on a caret in range, with the inserted buffer left as `insertIdx`. -/
theorem Add_of_le (i : Nat) (s : List Char) (c : Char) (hi : i ≤ s.length)
    (hs : s.length < SIZE_MAX) :
    Add { m_Index := i, m_Text := s } c
      = (.ok (), { m_Index := i + 1, m_Text := s.insertIdx i c }) := by
  have hlen : (s.insertIdx i c).length = s.length + 1 := List.length_insertIdx i s hi
  have hmr := MoveRight_of_ne_nil i (s.insertIdx i c) (by omega)
    (by unfold SIZE_MAX SIZE_MOD at *; omega)
  have hlt : i < (s.insertIdx i c).length := by omega
  have hnot : ¬ s.length < i := by omega
  simp only [Add, hnot, if_false, hmr, hlt, if_true]

end LineManager

/-- C4: for every buffer `s`, caret `i ≤ length s` and character `c`, `Add c` succeeds and
yields the first `i` characters of `s`, then `c`, then the remaining characters, with the
caret at `i + 1`; the constructed state with `X` becomes "HeXllo, World!\n" with caret 3. -/
theorem C4_Add_postcondition (s : List Char) (i : Nat) (c : Char) (hi : i ≤ s.length)
    (hs : s.length < SIZE_MAX) :
    LineManager.Add { m_Index := i, m_Text := s } c
        = (.ok (), { m_Index := i + 1, m_Text := s.take i ++ [c] ++ s.drop i })
      ∧ LineManager.Add { m_Index := 2, m_Text := "Hello, World!\n".toList } 'X'
        = (.ok (), { m_Index := 3, m_Text := "HeXllo, World!\n".toList }) := by
  refine ⟨?_, by rfl⟩
  rw [LineManager.Add_of_le i s c hi hs, insertIdx_eq_take_cons_drop c i s hi]

theorem C4_Add_postcondition_witness :
    LineManager.Add { m_Index := 1, m_Text := ['a', 'b'] } 'c'
        = (.ok (), { m_Index := 1 + 1,
                     m_Text := ['a', 'b'].take 1 ++ ['c']
                       ++ ['a', 'b'].drop 1 }) :=
  (C4_Add_postcondition ['a', 'b'] 1 'c' (by decide)
    (by decide)).1

/-- C5: for every buffer `s`, caret `i ≤ length s` and character `c`, `Add c` followed at
once by `Remove` succeeds twice and restores the buffer `s` and the caret `i`. -/
theorem C5_Add_then_Remove (s : List Char) (i : Nat) (c : Char) (hi : i ≤ s.length)
    (hs : s.length < SIZE_MAX) :
    (LineManager.Add { m_Index := i, m_Text := s } c).1 = .ok ()
      ∧ LineManager.Remove (LineManager.Add { m_Index := i, m_Text := s } c).2
        = (.ok (), { m_Index := i, m_Text := s }) := by
  rw [LineManager.Add_of_le i s c hi hs]
  refine ⟨rfl, ?_⟩
  have hlen : (s.insertIdx i c).length = s.length + 1 := List.length_insertIdx i s hi
  have h1 : ¬ (s.insertIdx i c).length < i + 1 := by omega
  simp [LineManager.Remove, LineManager.MoveLeft, h1, List.eraseIdx_insertIdx]

theorem C5_Add_then_Remove_witness :
    (LineManager.Add { m_Index := 2, m_Text := ['a', 'b'] }
        'c').1 = .ok ()
      ∧ LineManager.Remove
          (LineManager.Add { m_Index := 2, m_Text := ['a', 'b'] }
            'c').2
        = (.ok (), { m_Index := 2, m_Text := ['a', 'b'] }) :=
  C5_Add_then_Remove ['a', 'b'] 2 'c' (by decide) (by decide)

/-- C6: for every buffer `s` and caret `i` with `0 < i ≤ length s`, `Remove` succeeds,
the new buffer is `s` without the character at offset `i - 1` (the characters before it
and those from offset `i` on, in order, so one character shorter), and the caret is
`i - 1`. -/
theorem C6_Remove_postcondition (s : List Char) (i : Nat) (h0 : 0 < i) (hi : i ≤ s.length) :
    LineManager.Remove { m_Index := i, m_Text := s }
        = (.ok (), { m_Index := i - 1, m_Text := s.take (i - 1) ++ s.drop i })
      ∧ (s.take (i - 1) ++ s.drop i).length + 1 = s.length := by
  have hne : i ≠ 0 := by omega
  have hnot : ¬ s.length < i := by omega
  have hsucc : i - 1 + 1 = i := by omega
  refine ⟨?_, ?_⟩
  · simp [LineManager.Remove, LineManager.MoveLeft, hne, hnot, h0,
      List.eraseIdx_eq_take_drop_succ, hsucc]
  · simp only [List.length_append, List.length_take, List.length_drop]
    omega

theorem C6_Remove_postcondition_witness :
    LineManager.Remove { m_Index := 2, m_Text := ['a', 'b'] }
        = (.ok (), { m_Index := 2 - 1,
                     m_Text := ['a', 'b'].take (2 - 1)
                       ++ ['a', 'b'].drop 2 })
      ∧ (['a', 'b'].take (2 - 1)
          ++ ['a', 'b'].drop 2).length + 1
        = ['a', 'b'].length :=
  C6_Remove_postcondition ['a', 'b'] 2 (by decide) (by decide)

/-- C7: for every state, `Add c` throws out-of-range exactly when the caret is greater
than the buffer length, and so does `Remove`; whenever either throws, the buffer and the
caret are what they were before the call. -/
theorem C7_out_of_range_condition (lm : LineManager) (c : Char) :
    ((∃ msg, (lm.Add c).1 = .error msg) ↔ lm.m_Text.length < lm.m_Index)
      ∧ ((∃ msg, lm.Remove.1 = .error msg) ↔ lm.m_Text.length < lm.m_Index)
      ∧ (∀ msg, (lm.Add c).1 = .error msg → (lm.Add c).2 = lm)
      ∧ (∀ msg, lm.Remove.1 = .error msg → lm.Remove.2 = lm) := by
  refine ⟨?_, ?_, ?_, ?_⟩
  · unfold LineManager.Add
    by_cases h : lm.m_Text.length < lm.m_Index <;> simp [h]
  · unfold LineManager.Remove
    by_cases h0 : lm.m_Index = 0
    · simp [h0]
    · by_cases h : lm.m_Text.length < lm.m_Index <;> simp [h0, h]
  · intro msg
    unfold LineManager.Add
    by_cases h : lm.m_Text.length < lm.m_Index <;> simp [h]
  · intro msg
    unfold LineManager.Remove
    by_cases h0 : lm.m_Index = 0
    · simp [h0]
    · by_cases h : lm.m_Text.length < lm.m_Index <;> simp [h0, h]

/-! ## Newline scans (C8, C9) -/

namespace LineManager

theorem scanLeft_eq_some (text : List Char) (c : Char) :
    ∀ (n j : Nat), scanLeft text c n = some j →
      j < n ∧ text[j]? = some c ∧ ∀ k, j < k → k < n → text[k]? ≠ some c
  | 0, j, h => by simp [scanLeft] at h
  | n + 1, j, h => by
      unfold scanLeft at h
      by_cases hc : text[n]? = some c
      · simp only [hc, if_true, Option.some.injEq] at h
        subst h
        exact ⟨by omega, hc, fun k h1 h2 => by omega⟩
      · simp only [hc, if_false] at h
        obtain ⟨h1, h2, h3⟩ := scanLeft_eq_some text c n j h
        refine ⟨by omega, h2, fun k hk1 hk2 => ?_⟩
        by_cases hkn : k = n
        · subst hkn
          exact hc
        · exact h3 k hk1 (by omega)

theorem scanLeft_eq_none (text : List Char) (c : Char) :
    ∀ (n : Nat), scanLeft text c n = none → ∀ k, k < n → text[k]? ≠ some c
  | 0, _, k, hk => by omega
  | n + 1, h, k, hk => by
      unfold scanLeft at h
      by_cases hc : text[n]? = some c
      · simp [hc] at h
      · simp only [hc, if_false] at h
        by_cases hkn : k = n
        · subst hkn
          exact hc
        · exact scanLeft_eq_none text c n h k (by omega)

theorem scanRight_eq_some (c : Char) :
    ∀ (l : List Char) (pos j : Nat), scanRight c l pos = some j →
      pos ≤ j ∧ l[j - pos]? = some c ∧ ∀ k, pos ≤ k → k < j → l[k - pos]? ≠ some c
  | [], pos, j, h => by simp [scanRight] at h
  | x :: rest, pos, j, h => by
      unfold scanRight at h
      by_cases hc : x = c
      · simp only [hc, if_true, Option.some.injEq] at h
        subst h
        exact ⟨Nat.le_refl _, by simp [hc], fun k h1 h2 => by omega⟩
      · simp only [hc, if_false] at h
        obtain ⟨h1, h2, h3⟩ := scanRight_eq_some c rest (pos + 1) j h
        have hj : j - pos = (j - (pos + 1)) + 1 := by omega
        refine ⟨by omega, by rw [hj]; simpa using h2, fun k hk1 hk2 => ?_⟩
        by_cases hkp : k = pos
        · subst hkp
          simp [hc]
        · have hk : k - pos = (k - (pos + 1)) + 1 := by omega
          rw [hk]
          simpa using h3 k (by omega) hk2

theorem scanRight_eq_none (c : Char) :
    ∀ (l : List Char) (pos : Nat), scanRight c l pos = none → ∀ k : Nat, l[k]? ≠ some c
  | [], _, _, k => by simp
  | x :: rest, pos, h, k => by
      unfold scanRight at h
      by_cases hc : x = c
      · simp [hc] at h
      · simp only [hc, if_false] at h
        cases k with
        | zero => simp [hc]
        | succ k => simpa using scanRight_eq_none c rest (pos + 1) h k

end LineManager

/-- C8: for every buffer `s` and caret `i ≤ length s`: when some offset below `i` holds a
newline, `MoveUp` returns true and puts the caret on the greatest such offset (on the
newline itself); when none does, `MoveUp` returns false and keeps the caret.  On "ab\ncd"
the caret 4 goes to 2, and the caret 0 stays with result false. -/
theorem C8_MoveUp_nearest_newline (s : List Char) (i : Nat) (_hi : i ≤ s.length) :
    ((∃ j, j < i ∧ s[j]? = some '\n') →
        ∃ j, j < i ∧ s[j]? = some '\n' ∧ (∀ k, k < i → s[k]? = some '\n' → k ≤ j)
          ∧ LineManager.MoveUp { m_Index := i, m_Text := s }
            = (true, { m_Index := j, m_Text := s }))
      ∧ ((¬ ∃ j, j < i ∧ s[j]? = some '\n') →
        LineManager.MoveUp { m_Index := i, m_Text := s }
          = (false, { m_Index := i, m_Text := s }))
      ∧ LineManager.MoveUp { m_Index := 4, m_Text := "ab\ncd".toList }
        = (true, { m_Index := 2, m_Text := "ab\ncd".toList })
      ∧ LineManager.MoveUp { m_Index := 0, m_Text := "ab\ncd".toList }
        = (false, { m_Index := 0, m_Text := "ab\ncd".toList }) := by
  refine ⟨?_, ?_, by rfl, by rfl⟩
  · rintro ⟨j0, hj0, hs0⟩
    have hpos : ¬ i ≤ 0 := by omega
    cases hscan : LineManager.scanLeft s '\n' i with
    | none => exact absurd hs0 (LineManager.scanLeft_eq_none s '\n' i hscan j0 hj0)
    | some j =>
        obtain ⟨h1, h2, h3⟩ := LineManager.scanLeft_eq_some s '\n' i j hscan
        have hjlen : j < s.length := by
          rcases Nat.lt_or_ge j s.length with h | h
          · exact h
          · rw [List.getElem?_eq_none h] at h2
            exact absurd h2 (by simp)
        have hne : j ≠ s.length := by omega
        refine ⟨j, h1, h2, fun k hk hks => ?_, ?_⟩
        · by_contra hcon
          exact h3 k (by omega) hk hks
        · simp [LineManager.MoveUp, LineManager.FindFirstLeftOfCursor, hpos, hscan, hne]
  · intro hnone
    by_cases hpos : i ≤ 0
    · simp [LineManager.MoveUp, LineManager.FindFirstLeftOfCursor, hpos]
    · cases hscan : LineManager.scanLeft s '\n' i with
      | none => simp [LineManager.MoveUp, LineManager.FindFirstLeftOfCursor, hpos, hscan]
      | some j =>
          obtain ⟨h1, h2, _⟩ := LineManager.scanLeft_eq_some s '\n' i j hscan
          exact absurd ⟨j, h1, h2⟩ hnone

theorem C8_MoveUp_nearest_newline_witness :
    (3 : Nat) ≤ "a\n\n".toList.length
      ∧ ∃ j, j < 3 ∧ "a\n\n".toList[j]? = some '\n'
          ∧ (∀ k, k < 3 → "a\n\n".toList[k]? = some '\n' → k ≤ j)
          ∧ LineManager.MoveUp { m_Index := 3, m_Text := "a\n\n".toList }
            = (true, { m_Index := j, m_Text := "a\n\n".toList }) :=
  ⟨by decide,
    (C8_MoveUp_nearest_newline "a\n\n".toList 3 (by decide)).1 ⟨1, by decide, by decide⟩⟩

/-- C9: for every buffer `s` and caret `i ≤ length s`: when some offset `j` with
`i < j < length s` holds a newline, `MoveDown` returns true and puts the caret on the least
such offset (on the newline itself); when none does, `MoveDown` returns false and keeps
the caret.  The character at offset `i` itself is not looked at: on "ab\ncd" with the
caret on the newline at 2 the result is false. -/
theorem C9_MoveDown_nearest_newline (s : List Char) (i : Nat) (hi : i ≤ s.length) :
    ((∃ j, i < j ∧ j < s.length ∧ s[j]? = some '\n') →
        ∃ j, i < j ∧ j < s.length ∧ s[j]? = some '\n'
          ∧ (∀ k, i < k → s[k]? = some '\n' → j ≤ k)
          ∧ LineManager.MoveDown { m_Index := i, m_Text := s }
            = (true, { m_Index := j, m_Text := s }))
      ∧ ((¬ ∃ j, i < j ∧ j < s.length ∧ s[j]? = some '\n') →
        LineManager.MoveDown { m_Index := i, m_Text := s }
          = (false, { m_Index := i, m_Text := s }))
      ∧ LineManager.MoveDown { m_Index := 2, m_Text := "ab\ncd".toList }
        = (false, { m_Index := 2, m_Text := "ab\ncd".toList }) := by
  have hdrop : ∀ k : Nat, (s.drop (i + 1))[k]? = s[i + 1 + k]? := fun k => by
    simp [List.getElem?_drop]
  refine ⟨?_, ?_, by rfl⟩
  · rintro ⟨j0, hj0, hj0len, hs0⟩
    have hlt : ¬ i ≥ s.length := by omega
    cases hscan : LineManager.scanRight '\n' (s.drop (i + 1)) (i + 1) with
    | none =>
        have h := LineManager.scanRight_eq_none '\n' _ _ hscan (j0 - (i + 1))
        rw [hdrop] at h
        have e : i + 1 + (j0 - (i + 1)) = j0 := by omega
        rw [e] at h
        exact absurd hs0 h
    | some j =>
        obtain ⟨h1, h2, h3⟩ := LineManager.scanRight_eq_some '\n' _ _ j hscan
        rw [hdrop] at h2
        have e : i + 1 + (j - (i + 1)) = j := by omega
        rw [e] at h2
        have hjlen : j < s.length := by
          rcases Nat.lt_or_ge j s.length with h | h
          · exact h
          · rw [List.getElem?_eq_none h] at h2
            exact absurd h2 (by simp)
        have hne : j ≠ s.length := by omega
        refine ⟨j, by omega, hjlen, h2, fun k hk hks => ?_, ?_⟩
        · by_contra hcon
          have h := h3 k (by omega) (by omega)
          rw [hdrop] at h
          have e2 : i + 1 + (k - (i + 1)) = k := by omega
          rw [e2] at h
          exact h hks
        · simp [LineManager.MoveDown, LineManager.FindFirstRightOfCursor, hlt, hscan, hne]
  · intro hnone
    by_cases hlt : i ≥ s.length
    · simp [LineManager.MoveDown, LineManager.FindFirstRightOfCursor, hlt]
    · cases hscan : LineManager.scanRight '\n' (s.drop (i + 1)) (i + 1) with
      | none => simp [LineManager.MoveDown, LineManager.FindFirstRightOfCursor, hlt, hscan]
      | some j =>
          obtain ⟨h1, h2, _⟩ := LineManager.scanRight_eq_some '\n' _ _ j hscan
          rw [hdrop] at h2
          have e : i + 1 + (j - (i + 1)) = j := by omega
          rw [e] at h2
          have hjlen : j < s.length := by
            rcases Nat.lt_or_ge j s.length with h | h
            · exact h
            · rw [List.getElem?_eq_none h] at h2
              exact absurd h2 (by simp)
          exact absurd ⟨j, by omega, hjlen, h2⟩ hnone

theorem C9_MoveDown_nearest_newline_witness :
    (0 : Nat) ≤ "\na\n\n".toList.length
      ∧ ∃ j, 0 < j ∧ j < "\na\n\n".toList.length ∧ "\na\n\n".toList[j]? = some '\n'
          ∧ (∀ k, 0 < k → "\na\n\n".toList[k]? = some '\n' → j ≤ k)
          ∧ LineManager.MoveDown { m_Index := 0, m_Text := "\na\n\n".toList }
            = (true, { m_Index := j, m_Text := "\na\n\n".toList }) :=
  ⟨by decide,
    (C9_MoveDown_nearest_newline "\na\n\n".toList 0 (by decide)).1
      ⟨3, by decide, by decide, by decide⟩⟩

/-! ## Left and right (C10) -/

/-- C10: on a buffer of length `len`, from a caret `i` with `0 < i ≤ len`, `MoveLeft`
then `MoveRight` both return true and restore the caret `i`; from a caret `i < len`,
`MoveRight` then `MoveLeft` both return true and restore the caret `i`. -/
theorem C10_left_right_round_trip (s : List Char) (i : Nat) (hs : s.length < SIZE_MAX) :
    (0 < i → i ≤ s.length →
        (LineManager.MoveLeft { m_Index := i, m_Text := s }).1 = true
          ∧ LineManager.MoveRight (LineManager.MoveLeft { m_Index := i, m_Text := s }).2
            = (true, { m_Index := i, m_Text := s }))
      ∧ (i < s.length →
        (LineManager.MoveRight { m_Index := i, m_Text := s }).1 = true
          ∧ LineManager.MoveLeft (LineManager.MoveRight { m_Index := i, m_Text := s }).2
            = (true, { m_Index := i, m_Text := s })) := by
  have hmod : s.length < SIZE_MOD := by unfold SIZE_MAX at hs; omega
  constructor
  · intro h0 hi
    have hl : LineManager.MoveLeft { m_Index := i, m_Text := s }
        = (true, { m_Index := i - 1, m_Text := s }) := by
      simp [LineManager.MoveLeft, h0]
    have hlt : i - 1 < s.length := by omega
    have hsucc : i - 1 + 1 = i := by omega
    rw [hl]
    refine ⟨rfl, ?_⟩
    show LineManager.MoveRight { m_Index := i - 1, m_Text := s } = _
    rw [LineManager.MoveRight_of_ne_nil (i - 1) s (by omega) hmod]
    simp [hlt, hsucc]
  · intro hi
    have hr : LineManager.MoveRight { m_Index := i, m_Text := s }
        = (true, { m_Index := i + 1, m_Text := s }) := by
      rw [LineManager.MoveRight_of_ne_nil i s (by omega) hmod]
      simp [hi]
    rw [hr]
    refine ⟨rfl, ?_⟩
    simp [LineManager.MoveLeft]

theorem C10_left_right_round_trip_witness :
    "ab".toList.length < SIZE_MAX
      ∧ ((LineManager.MoveLeft { m_Index := 1, m_Text := "ab".toList }).1 = true
          ∧ LineManager.MoveRight (LineManager.MoveLeft { m_Index := 1, m_Text := "ab".toList }).2
            = (true, { m_Index := 1, m_Text := "ab".toList }))
      ∧ ((LineManager.MoveRight { m_Index := 1, m_Text := "ab".toList }).1 = true
          ∧ LineManager.MoveLeft (LineManager.MoveRight { m_Index := 1, m_Text := "ab".toList }).2
            = (true, { m_Index := 1, m_Text := "ab".toList })) :=
  ⟨by decide,
    (C10_left_right_round_trip "ab".toList 1 (by decide)).1 (by decide) (by decide),
    (C10_left_right_round_trip "ab".toList 1 (by decide)).2 (by decide)⟩

/-! ## Boundary cases and jumps (C11, C12, C13) -/

/-- C11: for every buffer, the empty one included, `Remove` with the caret at 0 reports no
error and leaves the buffer and the caret as they were. -/
theorem C11_Remove_at_start (s : List Char) :
    LineManager.Remove { m_Index := 0, m_Text := s }
        = (.ok (), { m_Index := 0, m_Text := s })
      ∧ LineManager.Remove { m_Index := 0, m_Text := [] }
        = (.ok (), { m_Index := 0, m_Text := [] }) := by
  constructor <;> simp [LineManager.Remove]

/-- C12: for every buffer and caret `i`, `MoveLeft` returns true with the caret at `i - 1`
when `i > 0`, and returns false with the caret still 0 when `i = 0`; so it returns true
exactly when the caret changed. -/
theorem C12_MoveLeft (s : List Char) (i : Nat) :
    (0 < i → LineManager.MoveLeft { m_Index := i, m_Text := s }
        = (true, { m_Index := i - 1, m_Text := s }))
      ∧ (i = 0 → LineManager.MoveLeft { m_Index := i, m_Text := s }
        = (false, { m_Index := 0, m_Text := s }))
      ∧ ((LineManager.MoveLeft { m_Index := i, m_Text := s }).1 = true
        ↔ (LineManager.MoveLeft { m_Index := i, m_Text := s }).2.m_Index ≠ i) := by
  refine ⟨fun h => ?_, fun h => ?_, ?_⟩
  · simp [LineManager.MoveLeft, h]
  · subst h
    simp [LineManager.MoveLeft]
  · by_cases h : 0 < i
    · have hne : i - 1 ≠ i := by omega
      simp [LineManager.MoveLeft, h, hne]
    · simp [LineManager.MoveLeft, h]

theorem C12_MoveLeft_witness :
    LineManager.MoveLeft { m_Index := 3, m_Text := "ab\ncd".toList }
        = (true, { m_Index := 3 - 1, m_Text := "ab\ncd".toList })
      ∧ LineManager.MoveLeft { m_Index := 0, m_Text := "ab\ncd".toList }
        = (false, { m_Index := 0, m_Text := "ab\ncd".toList }) :=
  ⟨(C12_MoveLeft "ab\ncd".toList 3).1 (by decide),
    (C12_MoveLeft "ab\ncd".toList 0).2.1 rfl⟩

/-- C13: `SetBegin` puts the caret at 0 in every state; `SetEnd` puts the caret at
`length - 1` on every buffer that is not empty and leaves the caret at the value it had
on the empty buffer; neither changes the buffer. -/
theorem C13_SetBegin_SetEnd (s : List Char) (i : Nat) :
    LineManager.SetBegin { m_Index := i, m_Text := s } = { m_Index := 0, m_Text := s }
      ∧ (s ≠ [] → LineManager.SetEnd { m_Index := i, m_Text := s }
        = { m_Index := s.length - 1, m_Text := s })
      ∧ LineManager.SetEnd { m_Index := i, m_Text := [] } = { m_Index := i, m_Text := [] } := by
  refine ⟨rfl, fun h => ?_, rfl⟩
  simp [LineManager.SetEnd, h]

theorem C13_SetBegin_SetEnd_witness :
    LineManager.SetEnd { m_Index := 0, m_Text := "ab\ncd".toList }
      = { m_Index := "ab\ncd".toList.length - 1, m_Text := "ab\ncd".toList } :=
  (C13_SetBegin_SetEnd "ab\ncd".toList 0).2.1 (by decide)

/-! ## The dispatcher (C14, C15) -/

theorem toNat_ofNat_of_le (u : Nat) (h : u ≤ 126) : (Char.ofNat u).toNat = u := by
  interval_cases u <;> rfl

/-- C14: in every state with the caret in range and for every code point `u`:
when `32 ≤ u ≤ 126`, `OnTextEntered` is `Add` of the character with code `u` (which
succeeds); when `u < 32` or `u ≥ 127`, the buffer and the caret are unchanged, in
particular for the codes 7, 8, 9, 10 and 13. -/
theorem C14_OnTextEntered_filter (ed : TextEditor) (u : Nat)
    (hcaret : CaretInRange ed.m_Lines) :
    (32 ≤ u → u ≤ 126 →
        (Char.ofNat u).toNat = u
          ∧ (ed.m_Lines.Add (Char.ofNat u)).1 = .ok ()
          ∧ ed.OnTextEntered { unicode := u }
            = .ok { m_Lines := (ed.m_Lines.Add (Char.ofNat u)).2 })
      ∧ ((u < 32 ∨ 127 ≤ u) → ed.OnTextEntered { unicode := u } = .ok ed)
      ∧ (∀ v ∈ [7, 8, 9, 10, 13], ed.OnTextEntered { unicode := v } = .ok ed) := by
  refine ⟨fun h1 h2 => ?_, fun h => ?_, ?_⟩
  · have hnot : ¬ (u ≥ 127 ∨ u < 32) := by omega
    have hmod : u % 256 = u := Nat.mod_eq_of_lt (by omega)
    have hin : ¬ ed.m_Lines.m_Text.length < ed.m_Lines.m_Index := by
      unfold CaretInRange at hcaret
      omega
    refine ⟨toNat_ofNat_of_le u h2, ?_, ?_⟩
    · simp [LineManager.Add, hin]
    · simp [TextEditor.OnTextEntered, hnot, hmod, TextEditor.call, LineManager.Add, hin]
  · have hyes : u ≥ 127 ∨ u < 32 := by omega
    simp [TextEditor.OnTextEntered, hyes]
  · intro v hv
    simp only [List.mem_cons, List.mem_singleton, List.not_mem_nil, or_false] at hv
    have hyes : v ≥ 127 ∨ v < 32 := by omega
    simp [TextEditor.OnTextEntered, hyes]

theorem C14_OnTextEntered_filter_witness :
    CaretInRange TextEditor.new.m_Lines
      ∧ TextEditor.new.OnTextEntered { unicode := 88 }
        = .ok { m_Lines := (TextEditor.new.m_Lines.Add (Char.ofNat 88)).2 }
      ∧ TextEditor.new.OnTextEntered { unicode := 7 } = .ok TextEditor.new :=
  ⟨by decide,
    ((C14_OnTextEntered_filter TextEditor.new 88 (by decide)).1 (by decide) (by decide)).2.2,
    (C14_OnTextEntered_filter TextEditor.new 7 (by decide)).2.1 (Or.inl (by decide))⟩

/-- C15: for every state and every key-pressed event, `OnKeyPressed` gives the result of
the spec table at the event's key code (`Add` of newline for Enter, `Add` of tab for Tab,
`Remove` for Backspace, `MoveLeft`, `MoveRight`, `MoveUp`, `MoveDown` for the arrows, the
state unchanged for any other key), whatever the control, shift and alt flags are. -/
theorem C15_key_dispatch_table (ed : TextEditor) (k : Key) (control shift alt : Bool) :
    ed.OnKeyPressed { code := k, control := control, shift := shift, alt := alt }
        = specKeyTable ed k
      ∧ ∀ control2 shift2 alt2 : Bool,
          ed.OnKeyPressed { code := k, control := control2, shift := shift2, alt := alt2 }
            = ed.OnKeyPressed { code := k, control := control, shift := shift, alt := alt } := by
  refine ⟨?_, fun _ _ _ => rfl⟩
  cases k with
  | Enter =>
      show (TextEditor.call (ed.m_Lines.Add '\n') >>= fun ed2 => Except.ok ed2)
        = TextEditor.call (ed.m_Lines.Add '\n')
      cases TextEditor.call (ed.m_Lines.Add '\n') <;> rfl
  | Tab =>
      show (TextEditor.call (ed.m_Lines.Add '\t') >>= fun ed2 => Except.ok ed2)
        = TextEditor.call (ed.m_Lines.Add '\t')
      cases TextEditor.call (ed.m_Lines.Add '\t') <;> rfl
  | Backspace =>
      show (TextEditor.call ed.m_Lines.Remove >>= fun ed2 => Except.ok ed2)
        = TextEditor.call ed.m_Lines.Remove
      cases TextEditor.call ed.m_Lines.Remove <;> rfl
  | Left => rfl
  | Right => rfl
  | Up => rfl
  | Down => rfl
  | Other n => rfl

/-! ## Invariant preservation, frame and wrap-around (C16, C17, C18) -/

namespace LineManager

/-- `MoveUp` either fails and keeps the state, or puts the caret on an offset of the buffer
below the old caret. -/
theorem MoveUp_cases (lm : LineManager) :
    lm.MoveUp = (false, lm)
      ∨ ∃ j, j < lm.m_Index ∧ j < lm.m_Text.length
          ∧ lm.MoveUp = (true, { m_Index := j, m_Text := lm.m_Text }) := by
  by_cases hpos : lm.m_Index ≤ 0
  · left
    simp [MoveUp, FindFirstLeftOfCursor, hpos]
  · cases hscan : scanLeft lm.m_Text '\n' lm.m_Index with
    | none =>
        left
        simp [MoveUp, FindFirstLeftOfCursor, hpos, hscan]
    | some j =>
        obtain ⟨h1, h2, _⟩ := scanLeft_eq_some lm.m_Text '\n' lm.m_Index j hscan
        have hjlen : j < lm.m_Text.length := by
          rcases Nat.lt_or_ge j lm.m_Text.length with h | h
          · exact h
          · rw [List.getElem?_eq_none h] at h2
            exact absurd h2 (by simp)
        have hne : j ≠ lm.m_Text.length := by omega
        right
        exact ⟨j, h1, hjlen, by simp [MoveUp, FindFirstLeftOfCursor, hpos, hscan, hne]⟩

/-- `MoveDown` either fails and keeps the state, or puts the caret on an offset of the
buffer after the old caret. -/
theorem MoveDown_cases (lm : LineManager) :
    lm.MoveDown = (false, lm)
      ∨ ∃ j, lm.m_Index < j ∧ j < lm.m_Text.length
          ∧ lm.MoveDown = (true, { m_Index := j, m_Text := lm.m_Text }) := by
  by_cases hlt : lm.m_Index ≥ lm.m_Text.length
  · left
    simp [MoveDown, FindFirstRightOfCursor, hlt]
  · cases hscan : scanRight '\n' (lm.m_Text.drop (lm.m_Index + 1)) (lm.m_Index + 1) with
    | none =>
        left
        simp [MoveDown, FindFirstRightOfCursor, hlt, hscan]
    | some j =>
        obtain ⟨h1, h2, _⟩ := scanRight_eq_some '\n' _ _ j hscan
        have hjlen : j < lm.m_Text.length := by
          rcases Nat.lt_or_ge j lm.m_Text.length with h | h
          · exact h
          · rw [List.getElem?_eq_none (by simp only [List.length_drop]; omega)] at h2
            exact absurd h2 (by simp)
        have hne : j ≠ lm.m_Text.length := by omega
        right
        exact ⟨j, by omega, hjlen,
          by simp [MoveDown, FindFirstRightOfCursor, hlt, hscan, hne]⟩

end LineManager

/-- C16: from every state with the caret in range, `Add`, `Remove`, `MoveLeft`, `MoveUp`,
`MoveDown`, `SetBegin` and `SetEnd` each give a state with the caret in range, and
`MoveRight` gives a state with the caret in range exactly when the buffer is not empty. -/
theorem C16_operations_and_caret_range (lm : LineManager) (c : Char)
    (h : CaretInRange lm) :
    CaretInRange (lm.Add c).2
      ∧ CaretInRange lm.Remove.2
      ∧ CaretInRange lm.MoveLeft.2
      ∧ CaretInRange lm.MoveUp.2
      ∧ CaretInRange lm.MoveDown.2
      ∧ CaretInRange lm.SetBegin
      ∧ CaretInRange lm.SetEnd
      ∧ (CaretInRange lm.MoveRight.2 ↔ lm.m_Text ≠ []) := by
  obtain ⟨i, s⟩ := lm
  unfold CaretInRange at h
  simp only at h
  refine ⟨?_, ?_, ?_, ?_, ?_, ?_, ?_, ?_⟩
  · have hnot : ¬ s.length < i := by omega
    have hlen : (s.insertIdx i c).length = s.length + 1 := List.length_insertIdx i s h
    simp only [LineManager.Add, hnot, if_false, LineManager.MoveRight, CaretInRange]
    split
    · simp only [hlen]
      have := Nat.mod_le (i + 1) SIZE_MOD
      omega
    · simp only [hlen]
      omega
  · by_cases h0 : i = 0
    · simp [LineManager.Remove, h0, CaretInRange]
    · have hnot : ¬ s.length < i := by omega
      have hpos : 0 < i := by omega
      have hlt : i - 1 < s.length := by omega
      simp only [LineManager.Remove, h0, hnot, if_false, LineManager.MoveLeft, hpos,
        gt_iff_lt, if_true, CaretInRange, List.length_eraseIdx, hlt]
      omega
  · simp only [LineManager.MoveLeft, CaretInRange]
    split
    · simp only
      omega
    · exact h
  · rcases LineManager.MoveUp_cases ⟨i, s⟩ with hup | ⟨j, _, hj, hup⟩
    · rw [hup]
      exact h
    · rw [hup]
      exact Nat.le_of_lt hj
  · rcases LineManager.MoveDown_cases ⟨i, s⟩ with hdown | ⟨j, _, hj, hdown⟩
    · rw [hdown]
      exact h
    · rw [hdown]
      exact Nat.le_of_lt hj
  · simp [LineManager.SetBegin, CaretInRange]
  · simp only [LineManager.SetEnd, CaretInRange]
    split
    · exact h
    · simp only
      omega
  · cases s with
    | nil =>
        have hi0 : i = 0 := by simpa using h
        subst hi0
        simp only [ne_eq, not_true_eq_false, iff_false]
        intro hcon
        exact absurd hcon (by decide)
    | cons x xs =>
        simp only [ne_eq, reduceCtorEq, not_false_eq_true, iff_true]
        have hM : SIZE_MOD = 18446744073709551616 := by norm_num [SIZE_MOD]
        simp only [LineManager.MoveRight, CaretInRange, List.length_cons, hM] at *
        split
        · simp only [List.length_cons]
          omega
        · exact h

theorem C16_operations_and_caret_range_witness :
    CaretInRange LineManager.new
      ∧ CaretInRange (LineManager.new.Add 'X').2
      ∧ (CaretInRange LineManager.new.MoveRight.2 ↔ LineManager.new.m_Text ≠ []) :=
  ⟨by decide,
    (C16_operations_and_caret_range LineManager.new 'X' (by decide)).1,
    (C16_operations_and_caret_range LineManager.new 'X' (by decide)).2.2.2.2.2.2.2⟩

/-- C17: in every state, `MoveLeft`, `MoveRight`, `MoveUp`, `MoveDown`, `SetBegin` and
`SetEnd` leave the buffer content as it was, whatever they return. -/
theorem C17_moves_keep_buffer (lm : LineManager) :
    lm.MoveLeft.2.m_Text = lm.m_Text
      ∧ lm.MoveRight.2.m_Text = lm.m_Text
      ∧ lm.MoveUp.2.m_Text = lm.m_Text
      ∧ lm.MoveDown.2.m_Text = lm.m_Text
      ∧ lm.SetBegin.m_Text = lm.m_Text
      ∧ lm.SetEnd.m_Text = lm.m_Text := by
  refine ⟨?_, ?_, ?_, ?_, rfl, ?_⟩
  · unfold LineManager.MoveLeft
    split <;> rfl
  · unfold LineManager.MoveRight
    split <;> rfl
  · rcases LineManager.MoveUp_cases lm with h | ⟨j, _, _, h⟩ <;> rw [h]
  · rcases LineManager.MoveDown_cases lm with h | ⟨j, _, _, h⟩ <;> rw [h]
  · unfold LineManager.SetEnd
    split <;> rfl

namespace LineManager

/-- On the empty buffer every `MoveRight` of a run advances the caret, as long as the
caret stays a `size_t` value. -/
theorem MoveRightTimes_nil :
    ∀ (n i : Nat), i + n < SIZE_MOD →
      MoveRightTimes n { m_Index := i, m_Text := [] } = { m_Index := i + n, m_Text := [] }
  | 0, i, _ => rfl
  | n + 1, i, h => by
      have hM : SIZE_MOD = 18446744073709551616 := by norm_num [SIZE_MOD]
      have hstep : MoveRight { m_Index := i, m_Text := [] }
          = (true, { m_Index := i + 1, m_Text := [] }) := by
        have hb : i ≤ (0 + SIZE_MOD - 1) % SIZE_MOD := by
          rw [hM] at h ⊢
          omega
        have hm : (i + 1) % SIZE_MOD = i + 1 := Nat.mod_eq_of_lt (by omega)
        simp only [MoveRight, List.length_nil, hb, if_true, hm]
      have ih := MoveRightTimes_nil n (i + 1) (by omega)
      simp only [MoveRightTimes, hstep, ih]
      have e : i + 1 + n = i + (n + 1) := by omega
      rw [e]

end LineManager

/-- C18: with 64-bit unsigned values, the bound `size() - 1` of `MoveRight` on the empty
buffer is `2 ^ 64 - 1`, so `MoveRight` returns true and increments the caret modulo
`2 ^ 64` at every caret value; `n` calls in a row from caret 0 on the empty buffer leave
the caret at `n` for every `n < 2 ^ 64`; on a buffer that is not empty `MoveRight`
returns true exactly when the caret is below the length. -/
theorem C18_MoveRight_wrap_around :
    (0 + SIZE_MOD - 1) % SIZE_MOD = 2 ^ 64 - 1
      ∧ (∀ i, i < SIZE_MOD →
          LineManager.MoveRight { m_Index := i, m_Text := [] }
            = (true, { m_Index := (i + 1) % SIZE_MOD, m_Text := [] }))
      ∧ (∀ n, n < SIZE_MOD →
          MoveRightTimes n { m_Index := 0, m_Text := [] } = { m_Index := n, m_Text := [] })
      ∧ (∀ (s : List Char) (i : Nat), s ≠ [] → s.length < SIZE_MAX →
          ((LineManager.MoveRight { m_Index := i, m_Text := s }).1 = true ↔ i < s.length)) := by
  have hM : SIZE_MOD = 18446744073709551616 := by norm_num [SIZE_MOD]
  refine ⟨by rw [hM]; norm_num, fun i hi => ?_, fun n hn => ?_, fun s i h0 hs => ?_⟩
  · have hb : i ≤ (0 + SIZE_MOD - 1) % SIZE_MOD := by
      rw [hM] at hi ⊢
      omega
    simp only [LineManager.MoveRight, List.length_nil, hb, if_true]
  · have h := LineManager.MoveRightTimes_nil n 0 (by omega)
    simpa using h
  · have hpos : 0 < s.length := List.length_pos.mpr h0
    have hmod : s.length < SIZE_MOD := by
      unfold SIZE_MAX at hs
      omega
    rw [LineManager.MoveRight_of_ne_nil i s hpos hmod]
    by_cases hi : i < s.length <;> simp [hi]

theorem C18_MoveRight_wrap_around_witness :
    LineManager.MoveRight { m_Index := 18446744073709551615, m_Text := [] }
        = (true, { m_Index := (18446744073709551615 + 1) % SIZE_MOD, m_Text := [] })
      ∧ MoveRightTimes 5 { m_Index := 0, m_Text := [] } = { m_Index := 5, m_Text := [] }
      ∧ ((LineManager.MoveRight { m_Index := 2, m_Text := "ab".toList }).1 = true
          ↔ 2 < "ab".toList.length) :=
  ⟨C18_MoveRight_wrap_around.2.1 18446744073709551615 (by decide),
    C18_MoveRight_wrap_around.2.2.1 5 (by decide),
    C18_MoveRight_wrap_around.2.2.2 "ab".toList 2 (by decide) (by decide)⟩

end Visionary
